import Mathlib

/-!
Shallow embedding of the numeric core of the audio spectrum-analysis and
band-stop filtering scripts `analise_freq.py` and `analise_freq_filtro.py`.

Signals (float sample arrays) are modelled as lists of exact rationals.
The spectrum stage follows `analisar_audio_fft`: `np.fft.fft` is the exact
discrete Fourier transform over the complex numbers, `np.fft.fftfreq` is the
standard FFT frequency convention, the retained indices are
`np.arange(1, N // 2 + 1)` and magnitudes are `2.0 / N * np.abs(...)`.
The filter stage follows `butter_bandstop`, `apply_bandstop_filter` and the
conditional normalization in `analisar_e_filtrar_audio`; the internals of
`scipy.signal.butter` and `scipy.signal.lfilter` are not part of the
repository and are modelled from the specification where marked.
-/

/-- Entry `k` of `np.fft.fftfreq N d` with `d = 1 / sr`: equals `k * sr / N`
for `k ≤ (N - 1) / 2` and `(k - N) * sr / N` (a negative frequency) for the
remaining indices. -/
def fftfreqVal (N : ℕ) (sr : ℚ) (k : ℕ) : ℚ :=
  if k ≤ (N - 1) / 2 then (k : ℚ) * sr / N else ((k : ℚ) - N) * sr / N

/-- `xf = np.fft.fftfreq(N, 1 / sr)` as a list of length `N`. -/
def fftfreq (N : ℕ) (sr : ℚ) : List ℚ :=
  (List.range N).map (fftfreqVal N sr)

/-- `primeira_metade_indices = np.arange(1, N // 2 + 1)`, the retained FFT
bin indices `1, 2, ..., N / 2` (integer division). -/
def primeira_metade_indices (N : ℕ) : List ℕ :=
  (List.range (N / 2)).map (fun i => i + 1)

/-- `xf_primeira_metade = xf[primeira_metade_indices]`: the frequency axis the
scripts attach to the retained spectrum bins. -/
def xf_primeira_metade (N : ℕ) (sr : ℚ) : List ℚ :=
  (primeira_metade_indices N).map (fun k => (fftfreq N sr).getD k 0)

/-- Entry `k` of `np.fft.fft y`: the discrete Fourier transform
`∑ n, y n * exp (-2 π i k n / N)` with `N = y.length`. -/
noncomputable def dft (y : List ℚ) (k : ℕ) : ℂ :=
  ∑ n ∈ Finset.range y.length,
    (y.getD n 0 : ℂ) *
      Complex.exp (-2 * (Real.pi : ℂ) * Complex.I * (k : ℂ) * (n : ℂ) / (y.length : ℂ))

/-- `magnitude_espectro = 2.0 / N * np.abs(yf[primeira_metade_indices])`. -/
noncomputable def magnitude_espectro (y : List ℚ) : List ℝ :=
  (primeira_metade_indices y.length).map
    (fun k => 2 / (y.length : ℝ) * Complex.abs (dft y k))

/-- The numeric core of `analisar_audio_fft`: from a signal and its sample
rate, the pair (frequency axis, magnitude spectrum) that the script computes
and plots.  File existence checks, decoding and plotting are I/O glue and are
not embedded. -/
noncomputable def analisar_audio_fft (y : List ℚ) (sr : ℚ) : List ℚ × List ℝ :=
  (xf_primeira_metade y.length sr, magnitude_espectro y)

/-- C1: the spectrum's frequency sequence is claimed to be strictly increasing
with `i`-th value `i * sr / N` for `i = 1 .. N / 2`.  Evaluating the embedded
code at the failing input `N = 4`, `sr = 4` shows the sequence is `[1, -2]`:
the bin at index `N / 2` carries numpy's negative Nyquist frequency
`-sr / 2`, so the sequence is neither strictly increasing nor equal to
`[1 * sr / N, 2 * sr / N] = [1, 2]`, although the code's own comment says the
`+ 1` is there to include the (positive) Nyquist frequency. -/
theorem xf_primeira_metade_even_negative_nyquist :
    xf_primeira_metade 4 4 = [1, -2] ∧
      ¬ List.Pairwise (fun p q => p < q) (xf_primeira_metade 4 4) := by
  have h : xf_primeira_metade 4 4 = [1, -2] := by
    norm_num [xf_primeira_metade, fftfreq, fftfreqVal, primeira_metade_indices,
      List.range_succ]
  refine ⟨h, ?_⟩
  rw [h]
  simp only [List.pairwise_cons, List.Pairwise.nil, List.mem_singleton,
    List.not_mem_nil, and_true]
  intro hcon
  have := hcon.1 (-2) rfl
  norm_num at this

/-- C2 counterexample: the scripts contain no `N < 2` input check.  On a
signal of length `1` the embedded `analisar_audio_fft` returns the degenerate
empty spectrum `([], [])` instead of failing with an `InvalidInput` error. -/
theorem analisar_audio_fft_length_one_returns_empty :
    analisar_audio_fft [(0 : ℚ)] 1 = ([], []) := by
  simp [analisar_audio_fft, xf_primeira_metade, magnitude_espectro,
    primeira_metade_indices]

/-- C2 amended: for every signal of length exactly `1` (the degenerate case
reachable with a nonempty decoded signal), `analisar_audio_fft` returns the
empty spectrum `([], [])` and raises no error. -/
theorem analisar_audio_fft_degenerate (y : List ℚ) (sr : ℚ) (h : y.length = 1) :
    analisar_audio_fft y sr = ([], []) := by
  simp [analisar_audio_fft, xf_primeira_metade, magnitude_espectro,
    primeira_metade_indices, h]

/-- C2 amended, witness at the concrete signal `[1]` with sample rate `2`. -/
theorem analisar_audio_fft_degenerate_witness :
    ([(1 : ℚ)] : List ℚ).length = 1 ∧ analisar_audio_fft [(1 : ℚ)] 2 = ([], []) :=
  ⟨by decide, analisar_audio_fft_degenerate [(1 : ℚ)] 2 (by decide)⟩

/-- Error taxonomy relevant to the embedded numeric core (spec section 7). -/
inductive FilterError where
  | invalidInput
deriving DecidableEq

/-- Modelled from the spec: `scipy.signal.butter(order, [low, high],
btype='bandstop')` is not repository code.  Per the spec, the design fails
with `InvalidInput` unless the Nyquist-normalized critical frequencies
satisfy `0 < low < high < 1`; the numeric coefficient values themselves are
abstracted by the parameter `coeffs` (the spec requires no bit-exact
coefficients, only the validation behavior and the order passed through). -/
def butter (coeffs : ℕ → ℚ → ℚ → List ℚ × List ℚ) (order : ℕ) (low high : ℚ) :
    Except FilterError (List ℚ × List ℚ) :=
  if 0 < low ∧ low < high ∧ high < 1 then Except.ok (coeffs order low high)
  else Except.error FilterError.invalidInput

/-- `butter_bandstop(lowcut, highcut, fs, order=5)`: normalizes the cutoffs by
the Nyquist frequency `0.5 * fs` and designs the Butterworth band-stop
filter. -/
def butter_bandstop (coeffs : ℕ → ℚ → ℚ → List ℚ × List ℚ)
    (lowcut highcut fs : ℚ) (order : ℕ := 5) :
    Except FilterError (List ℚ × List ℚ) :=
  let nyquist : ℚ := 0.5 * fs
  let low := lowcut / nyquist
  let high := highcut / nyquist
  butter coeffs order low high

/-- C3: `designBandstop` (= `butter_bandstop`) fails with `InvalidInput`
exactly when `low ≥ high`, or `high ≥ fs / 2`, or `low ≤ 0`; equivalently it
succeeds exactly when the Nyquist-normalized cutoffs satisfy
`0 < low_norm < high_norm < 1`. -/
theorem butter_bandstop_invalid_iff (coeffs : ℕ → ℚ → ℚ → List ℚ × List ℚ)
    (lowcut highcut fs : ℚ) (order : ℕ) (hfs : 0 < fs) :
    (butter_bandstop coeffs lowcut highcut fs order = Except.error FilterError.invalidInput ↔
      (highcut ≤ lowcut ∨ fs / 2 ≤ highcut ∨ lowcut ≤ 0)) ∧
    ((∃ ba, butter_bandstop coeffs lowcut highcut fs order = Except.ok ba) ↔
      (0 < lowcut / (0.5 * fs) ∧ lowcut / (0.5 * fs) < highcut / (0.5 * fs) ∧
        highcut / (0.5 * fs) < 1)) := by
  have hnyq : (0 : ℚ) < 0.5 * fs := by positivity
  have h1 : 0 < lowcut / (0.5 * fs) ↔ 0 < lowcut := by
    rw [lt_div_iff₀ hnyq, zero_mul]
  have h2 : lowcut / (0.5 * fs) < highcut / (0.5 * fs) ↔ lowcut < highcut :=
    div_lt_div_iff_of_pos_right hnyq
  have h3 : highcut / (0.5 * fs) < 1 ↔ highcut < 0.5 * fs := div_lt_one hnyq
  have hhalf : (0.5 : ℚ) * fs = fs / 2 := by ring
  constructor
  · simp only [butter_bandstop, butter]
    by_cases hc : 0 < lowcut / (0.5 * fs) ∧ lowcut / (0.5 * fs) < highcut / (0.5 * fs) ∧
        highcut / (0.5 * fs) < 1
    · rw [if_pos hc]
      simp only [reduceCtorEq, false_iff]
      push_neg
      rw [h1, h2, h3, hhalf] at hc
      exact ⟨hc.2.1, hhalf ▸ hc.2.2, hc.1⟩
    · rw [if_neg hc]
      simp only [true_iff]
      rw [h1, h2, h3, hhalf] at hc
      push_neg at hc
      by_cases hl : 0 < lowcut
      · by_cases hlh : lowcut < highcut
        · exact Or.inr (Or.inl (hc hl hlh))
        · exact Or.inl (not_lt.mp hlh)
      · exact Or.inr (Or.inr (not_lt.mp hl))
  · simp only [butter_bandstop, butter]
    by_cases hc : 0 < lowcut / (0.5 * fs) ∧ lowcut / (0.5 * fs) < highcut / (0.5 * fs) ∧
        highcut / (0.5 * fs) < 1
    · rw [if_pos hc]
      exact ⟨fun _ => hc, fun _ => ⟨_, rfl⟩⟩
    · rw [if_neg hc]
      simp only [reduceCtorEq, exists_false, false_iff]
      exact hc

/-- C3 witness: concrete invalid design, `lowcut = 3 ≥ highcut = 1` at sample
rate `fs = 2`. -/
theorem butter_bandstop_invalid_iff_witness :
    (0 : ℚ) < 2 ∧
    ((butter_bandstop (fun _ _ _ => ([], [])) 3 1 2 5 =
        Except.error FilterError.invalidInput ↔
      ((1 : ℚ) ≤ 3 ∨ (2 : ℚ) / 2 ≤ 1 ∨ (3 : ℚ) ≤ 0)) ∧
    ((∃ ba, butter_bandstop (fun _ _ _ => ([], [])) 3 1 2 5 = Except.ok ba) ↔
      (0 < (3 : ℚ) / (0.5 * 2) ∧ (3 : ℚ) / (0.5 * 2) < (1 : ℚ) / (0.5 * 2) ∧
        (1 : ℚ) / (0.5 * 2) < 1))) :=
  ⟨by norm_num, butter_bandstop_invalid_iff (fun _ _ _ => ([], [])) 3 1 2 5 (by norm_num)⟩

/-- C4: each retained magnitude equals `2 / N` times the absolute value of the
DFT at the corresponding index `k = i + 1 ∈ {1, ..., N / 2}`, and is
non-negative. -/
theorem magnitude_espectro_eq_scaled_abs_dft (y : List ℚ) (h2 : 2 ≤ y.length)
    (i : ℕ) (hi : i < (magnitude_espectro y).length) :
    (magnitude_espectro y).getD i 0 =
      2 / (y.length : ℝ) * Complex.abs (dft y (i + 1)) ∧
    0 ≤ (magnitude_espectro y).getD i 0 := by
  have key : (magnitude_espectro y).getD i 0 =
      2 / (y.length : ℝ) * Complex.abs (dft y (i + 1)) := by
    unfold magnitude_espectro primeira_metade_indices at hi ⊢
    rw [List.getD_eq_getElem _ _ hi]
    simp
  refine ⟨key, ?_⟩
  rw [key]
  have hN : (0 : ℝ) ≤ 2 / (y.length : ℝ) :=
    div_nonneg (by norm_num) (Nat.cast_nonneg _)
  exact mul_nonneg hN (Complex.abs.nonneg _)

/-- C4 witness at the concrete signal `[1, 0]` (length `2`), bin `i = 0`. -/
theorem magnitude_espectro_eq_scaled_abs_dft_witness :
    2 ≤ ([(1 : ℚ), 0] : List ℚ).length ∧
    0 < (magnitude_espectro [(1 : ℚ), 0]).length ∧
    ((magnitude_espectro [(1 : ℚ), 0]).getD 0 0 =
      2 / ((([(1 : ℚ), 0] : List ℚ).length : ℝ)) * Complex.abs (dft [(1 : ℚ), 0] 1) ∧
     0 ≤ (magnitude_espectro [(1 : ℚ), 0]).getD 0 0) :=
  ⟨by decide, by simp [magnitude_espectro, primeira_metade_indices],
    magnitude_espectro_eq_scaled_abs_dft [(1 : ℚ), 0] (by decide) 0
      (by simp [magnitude_espectro, primeira_metade_indices])⟩

/-- C5: the magnitude sequence has exactly `N / 2` entries (floor division):
`N / 2` for even `N` and, equivalently, `(N - 1) / 2` for odd `N`. -/
theorem magnitude_espectro_length_cases (y : List ℚ) :
    (magnitude_espectro y).length = y.length / 2 ∧
    (¬ 2 ∣ y.length → (magnitude_espectro y).length = (y.length - 1) / 2) := by
  have h : (magnitude_espectro y).length = y.length / 2 := by
    simp [magnitude_espectro, primeira_metade_indices]
  refine ⟨h, fun hodd => ?_⟩
  rw [h]
  omega

/-- C5 witness at the odd-length signal `[1, 2, 3]`: `(3 - 1) / 2 = 1`
entry. -/
theorem magnitude_espectro_length_cases_witness :
    ¬ 2 ∣ ([(1 : ℚ), 2, 3] : List ℚ).length ∧
    (magnitude_espectro [(1 : ℚ), 2, 3]).length =
      (([(1 : ℚ), 2, 3] : List ℚ).length - 1) / 2 :=
  ⟨by decide, (magnitude_espectro_length_cases [(1 : ℚ), 2, 3]).2 (by decide)⟩

/-- Modelled from the spec: `scipy.signal.lfilter(b, a, data)` is not
repository code.  Per the spec, `applyFilter` is the causal direct-form IIR
difference equation with zero initial state,
`a[0] * y[n] = ∑ i, b[i] * x[n - i] - ∑ j ≥ 1, a[j] * y[n - j]`,
where samples and outputs before time `0` are read as `0`.
`lfilterStep b a x m` produces the first `m` output samples. -/
def lfilterStep (b a x : List ℚ) : ℕ → List ℚ
  | 0 => []
  | n + 1 =>
    let ys := lfilterStep b a x n
    let acc :=
      (∑ i ∈ Finset.range b.length,
        b.getD i 0 * (if i ≤ n then x.getD (n - i) 0 else 0)) -
      (∑ j ∈ Finset.Icc 1 (a.length - 1),
        a.getD j 0 * (if j ≤ n then ys.getD (n - j) 0 else 0))
    ys ++ [acc / a.getD 0 0]

/-- `lfilter(b, a, x)`: the full output signal, one sample per input
sample. -/
def lfilter (b a x : List ℚ) : List ℚ := lfilterStep b a x x.length

theorem lfilterStep_length (b a x : List ℚ) (m : ℕ) :
    (lfilterStep b a x m).length = m := by
  induction m with
  | zero => rfl
  | succ n ih => simp [lfilterStep, ih]

theorem lfilterStep_getD_of_lt (b a x : List ℚ) {k m m' : ℕ} (hk : k < m)
    (hm : m ≤ m') :
    (lfilterStep b a x m').getD k 0 = (lfilterStep b a x m).getD k 0 := by
  induction m' with
  | zero => omega
  | succ n ih =>
    rcases Nat.lt_or_ge n m with h | h
    · have : m = n + 1 := by omega
      rw [this]
    · have hkn : k < (lfilterStep b a x n).length := by
        rw [lfilterStep_length]; omega
      calc (lfilterStep b a x (n + 1)).getD k 0
          = (lfilterStep b a x n).getD k 0 := by
            rw [lfilterStep]
            exact List.getD_append _ _ _ _ hkn
        _ = (lfilterStep b a x m).getD k 0 := ih h

theorem lfilterStep_getD_last (b a x : List ℚ) (n : ℕ) :
    (lfilterStep b a x (n + 1)).getD n 0 =
      ((∑ i ∈ Finset.range b.length,
          b.getD i 0 * (if i ≤ n then x.getD (n - i) 0 else 0)) -
       (∑ j ∈ Finset.Icc 1 (a.length - 1),
          a.getD j 0 * (if j ≤ n then (lfilterStep b a x n).getD (n - j) 0 else 0)))
      / a.getD 0 0 := by
  rw [lfilterStep]
  have hlen : (lfilterStep b a x n).length = n := lfilterStep_length b a x n
  rw [List.getD_append_right _ _ _ _ hlen.le]
  simp [hlen]

/-- C6: for every pair of coefficient vectors, `lfilter` (the `applyFilter`
stage of `apply_bandstop_filter`) returns a signal with the same sample count
as the input, and each output sample satisfies the causal direct-form IIR
difference equation with zero initial state
`y[n] = (∑ i, b[i] x[n-i] - ∑ j ≥ 1, a[j] y[n-j]) / a[0]`. -/
theorem lfilter_length_and_recurrence (b a x : List ℚ) :
    (lfilter b a x).length = x.length ∧
    ∀ n, n < x.length →
      (lfilter b a x).getD n 0 =
        ((∑ i ∈ Finset.range b.length,
            b.getD i 0 * (if i ≤ n then x.getD (n - i) 0 else 0)) -
         (∑ j ∈ Finset.Icc 1 (a.length - 1),
            a.getD j 0 * (if j ≤ n then (lfilter b a x).getD (n - j) 0 else 0)))
        / a.getD 0 0 := by
  refine ⟨lfilterStep_length b a x x.length, fun n hn => ?_⟩
  have h1 : (lfilter b a x).getD n 0 = (lfilterStep b a x (n + 1)).getD n 0 := by
    unfold lfilter
    exact lfilterStep_getD_of_lt b a x (Nat.lt_succ_self n) hn
  rw [h1, lfilterStep_getD_last]
  congr 1
  congr 1
  refine Finset.sum_congr rfl fun j hj => ?_
  rcases le_or_lt j n with hjn | hjn
  · rw [if_pos hjn, if_pos hjn]
    have hj1 : 1 ≤ j := (Finset.mem_Icc.mp hj).1
    have hlt : n - j < n := by omega
    have e1 : (lfilter b a x).getD (n - j) 0 = (lfilterStep b a x n).getD (n - j) 0 := by
      unfold lfilter
      exact lfilterStep_getD_of_lt b a x hlt (le_of_lt hn)
    rw [e1]
  · rw [if_neg (not_le.mpr hjn), if_neg (not_le.mpr hjn)]

/-- C6 witness: the identity filter `b = [1]`, `a = [1]` on the signal
`[2, 3]`, at output index `n = 0`. -/
theorem lfilter_length_and_recurrence_witness :
    (0 : ℕ) < ([(2 : ℚ), 3] : List ℚ).length ∧
    (lfilter [1] [1] [(2 : ℚ), 3]).getD 0 0 =
      ((∑ i ∈ Finset.range ([(1 : ℚ)] : List ℚ).length,
          ([(1 : ℚ)] : List ℚ).getD i 0 *
            (if i ≤ 0 then ([(2 : ℚ), 3] : List ℚ).getD (0 - i) 0 else 0)) -
       (∑ j ∈ Finset.Icc 1 (([(1 : ℚ)] : List ℚ).length - 1),
          ([(1 : ℚ)] : List ℚ).getD j 0 *
            (if j ≤ 0 then (lfilter [1] [1] [(2 : ℚ), 3]).getD (0 - j) 0 else 0)))
      / ([(1 : ℚ)] : List ℚ).getD 0 0 :=
  ⟨by decide, (lfilter_length_and_recurrence [1] [1] [(2 : ℚ), 3]).2 0 (by decide)⟩

/-- `apply_bandstop_filter(data, lowcut, highcut, fs, order=5)`: designs the
band-stop filter and runs `lfilter` over the data; a design failure
propagates. -/
def apply_bandstop_filter (coeffs : ℕ → ℚ → ℚ → List ℚ × List ℚ)
    (data : List ℚ) (lowcut highcut fs : ℚ) (order : ℕ := 5) :
    Except FilterError (List ℚ) :=
  Except.map (fun ba => lfilter ba.1 ba.2 data)
    (butter_bandstop coeffs lowcut highcut fs order)

/-- `lowcut_vocal = 300` Hz in `analisar_e_filtrar_audio`. -/
def lowcut_vocal : ℚ := 300

/-- `highcut_vocal = 5000` Hz in `analisar_e_filtrar_audio`. -/
def highcut_vocal : ℚ := 5000

/-- `filter_order = 8` in `analisar_e_filtrar_audio`. -/
def filter_order : ℕ := 8

/-- The filtering step of `analisar_e_filtrar_audio`: the band-stop filter is
applied to the original signal at the file's native sample rate `sr` (the
script loads with `sr=None`, so the signal is not resampled), passing
`lowcut_vocal`, `highcut_vocal` and `order=filter_order` explicitly. -/
def pipeline_y_filtered (coeffs : ℕ → ℚ → ℚ → List ℚ × List ℚ)
    (y_original : List ℚ) (sr : ℚ) : Except FilterError (List ℚ) :=
  apply_bandstop_filter coeffs y_original lowcut_vocal highcut_vocal sr filter_order

/-- `np.max(np.abs(y))` over the sample list (`0` for the empty signal). -/
def peak (y : List ℚ) : ℚ := (y.map (fun v => |v|)).foldr max 0

/-- The conditional normalization before saving:
`y_filtered / np.max(np.abs(y_filtered)) if np.max(np.abs(y_filtered)) > 1.0
else y_filtered`. -/
def y_filtered_normalized (y : List ℚ) : List ℚ :=
  if 1 < peak y then y.map (fun v => v / peak y) else y

theorem peak_cons (v : ℚ) (t : List ℚ) : peak (v :: t) = max |v| (peak t) := rfl

theorem peak_map_div (y : List ℚ) {c : ℚ} (hc : 0 < c) :
    peak (y.map (fun v => v / c)) = peak y / c := by
  induction y with
  | nil => simp [peak]
  | cons v t ih =>
    rw [List.map_cons, peak_cons, peak_cons, ih]
    have habs : |v / c| = |v| / c := by
      rw [abs_div, abs_of_pos hc]
    rw [habs]
    rcases le_total |v| (peak t) with h | h
    · rw [max_eq_right h, max_eq_right (by exact (div_le_div_iff_of_pos_right hc).mpr h)]
    · rw [max_eq_left h, max_eq_left (by exact (div_le_div_iff_of_pos_right hc).mpr h)]

/-- C7: the pre-persistence normalization leaves the signal unchanged when its
peak absolute sample value is at most `1`, and otherwise divides every sample
by that peak, producing a normalized peak of exactly `1`. -/
theorem y_filtered_normalized_cases (y : List ℚ) :
    (peak y ≤ 1 → y_filtered_normalized y = y) ∧
    (1 < peak y →
      y_filtered_normalized y = y.map (fun v => v / peak y) ∧
      peak (y_filtered_normalized y) = 1) := by
  constructor
  · intro h
    simp [y_filtered_normalized, not_lt.mpr h]
  · intro h
    have hpos : 0 < peak y := lt_trans one_pos h
    have heq : y_filtered_normalized y = y.map (fun v => v / peak y) := by
      simp [y_filtered_normalized, h]
    refine ⟨heq, ?_⟩
    rw [heq, peak_map_div y hpos, div_self (ne_of_gt hpos)]

/-- C7 witness at the concrete signal `[2]` with peak `2 > 1`. -/
theorem y_filtered_normalized_cases_witness :
    1 < peak [(2 : ℚ)] ∧
    (y_filtered_normalized [(2 : ℚ)] =
        ([(2 : ℚ)] : List ℚ).map (fun v => v / peak [(2 : ℚ)]) ∧
      peak (y_filtered_normalized [(2 : ℚ)]) = 1) :=
  ⟨by norm_num [peak], (y_filtered_normalized_cases [(2 : ℚ)]).2 (by norm_num [peak])⟩

/-- C9: the normalization never divides by zero: a signal with peak `0` (for
example the all-zero signal) passes through unchanged, and the division
branch is reached only when the peak exceeds `1`, hence is nonzero. -/
theorem y_filtered_normalized_no_div_by_zero (y : List ℚ) :
    (peak y = 0 → y_filtered_normalized y = y) ∧
    (y_filtered_normalized y ≠ y → 1 < peak y) := by
  constructor
  · intro h
    simp [y_filtered_normalized, h]
  · intro hne
    by_contra hle
    exact hne (by simp [y_filtered_normalized, hle])

/-- C9 witness at the all-zero signal `[0, 0]`. -/
theorem y_filtered_normalized_no_div_by_zero_witness :
    peak [(0 : ℚ), 0] = 0 ∧ y_filtered_normalized [(0 : ℚ), 0] = [(0 : ℚ), 0] :=
  ⟨by norm_num [peak], (y_filtered_normalized_no_div_by_zero [(0 : ℚ), 0]).1
    (by norm_num [peak])⟩

/-- C8: the pipeline filters the original signal at its native sample rate
with low cutoff `300`, high cutoff `5000` and order `8`: whenever the sample
rate exceeds `10000` Hz (so that the design is valid) the result is exactly
`lfilter` with the coefficients designed for order `8` and the cutoffs
`300` and `5000` normalized by the Nyquist frequency `0.5 * sr`. -/
theorem pipeline_uses_300_5000_order8 (coeffs : ℕ → ℚ → ℚ → List ℚ × List ℚ)
    (y : List ℚ) (sr : ℚ) (hsr : 10000 < sr) :
    pipeline_y_filtered coeffs y sr =
      Except.ok (lfilter (coeffs 8 (300 / (0.5 * sr)) (5000 / (0.5 * sr))).1
        (coeffs 8 (300 / (0.5 * sr)) (5000 / (0.5 * sr))).2 y) := by
  have hnyq : (0 : ℚ) < 0.5 * sr := by nlinarith
  have hcond : 0 < 300 / (0.5 * sr) ∧
      300 / (0.5 * sr) < 5000 / (0.5 * sr) ∧ 5000 / (0.5 * sr) < 1 := by
    refine ⟨by positivity, ?_, ?_⟩
    · exact (div_lt_div_iff_of_pos_right hnyq).mpr (by norm_num)
    · rw [div_lt_one hnyq]; nlinarith
  simp only [pipeline_y_filtered, apply_bandstop_filter, butter_bandstop, butter,
    lowcut_vocal, highcut_vocal, filter_order]
  rw [if_pos hcond]
  rfl

/-- C8 witness at sample rate `44100` Hz with constant unit coefficients and
the one-sample signal `[1]`. -/
theorem pipeline_uses_300_5000_order8_witness :
    (10000 : ℚ) < 44100 ∧
    pipeline_y_filtered (fun _ _ _ => ([(1 : ℚ)], [(1 : ℚ)])) [(1 : ℚ)] 44100 =
      Except.ok (lfilter [(1 : ℚ)] [(1 : ℚ)] [(1 : ℚ)]) :=
  ⟨by norm_num,
    pipeline_uses_300_5000_order8 (fun _ _ _ => ([(1 : ℚ)], [(1 : ℚ)]))
      [(1 : ℚ)] 44100 (by norm_num)⟩

/-- C10: calling `butter_bandstop` or `apply_bandstop_filter` without an
explicit `order` argument uses the default order `5`, not the pipeline's
documented `filter_order = 8`, which is passed explicitly only at the call
site inside `analisar_e_filtrar_audio`. -/
theorem default_order_is_five (coeffs : ℕ → ℚ → ℚ → List ℚ × List ℚ)
    (data : List ℚ) (lowcut highcut fs : ℚ) :
    butter_bandstop coeffs lowcut highcut fs =
      butter_bandstop coeffs lowcut highcut fs 5 ∧
    apply_bandstop_filter coeffs data lowcut highcut fs =
      apply_bandstop_filter coeffs data lowcut highcut fs 5 ∧
    (5 : ℕ) ≠ filter_order :=
  ⟨rfl, rfl, by decide⟩
